import Mathlib

/-!
# Verification of the Xanadu-Quantum-Challenges exercises

A shallow embedding, in Lean 4, of the four exercise scripts of the
repository (the Fourier-distance harness, the bitflip/fidelity notebook,
the parameter-shift notebook, the single-qubit universality notebook with
its appended qRAM script), together with proofs and refutations of the
specification claims about them.

Conventions used throughout:
* Python floats are modelled as real numbers (`ℝ`), and the exact decimal
  literals appearing in the test harnesses as rational numbers (`ℚ`).
* Quantum states on n qubits are modelled as complex amplitude functions
  taking one `Bool` per wire (`false` = |0⟩, `true` = |1⟩); gates are the
  linear maps the pennylane library documents for them.
* Exceptions are modelled with `Except String`.
-/

set_option linter.unusedVariables false

namespace Xanadu

open ComplexConjugate
open scoped Matrix

/-! ## The shared test harness (part_000, part_001, Gradients notebook)

All three notebook files end with the same loop:

```
for i, (input_, expected_output) in enumerate(test_cases):
    try:
        output = run(input_)
    except Exception as exc:
        print(f"Runtime Error. {exc}")
    else:
        message = 0
        if message == check(output, expected_output):
            print(f"Wrong Answer. ...")
        else:
            print("Correct!")
```

`run` either returns a value or raises; `check` either returns `None` or
raises `AssertionError`.  We model one iteration of this loop.  Note two
facts of the Python semantics that the model hard-codes:
* `0 == None` evaluates to `False` (`zeroEqNone` below);
* an exception raised by `check` inside the `else:` block of the
  `try` statement is NOT caught by the `except` clause.
-/

/-- What one test-case iteration of the harness loop prints (or, in the
last case, the uncaught exception that terminates it). -/
inductive TestOutcome
  | runtimeError (msg : String)
  | wrongAnswer
  | correct
  | uncaughtAssertion (msg : String)
  deriving DecidableEq

/-- The Python expression `0 == None` evaluates to `False`. -/
def zeroEqNone : Bool := false

/-- One iteration of the shared test loop: `runResult` is the outcome of
`run(input_)` (value or exception), `check` is the exercise's check
function applied to that output (returns `()` for Python `None`, or
raises an `AssertionError` carrying a message). -/
def harnessOutcome (runResult : Except String ℚ)
    (check : ℚ → Except String Unit) : TestOutcome :=
  match runResult with
  | .error exc => .runtimeError exc
  | .ok output =>
      match check output with
      | .error msg => .uncaughtAssertion msg
      | .ok _ => if zeroEqNone then .wrongAnswer else .correct

/-- The top level of each of the three notebook files, modelled as a
function of the contents of standard input: the loop runs over the
embedded `test_cases` list (pairs of an input string and an expected
value); standard input is never consulted by the source, so the `stdin`
parameter is unused. `run` and `check` are the exercise-specific
functions. -/
def notebookMain (stdin : String) (testCases : List (String × ℚ))
    (run : String → Except String ℚ)
    (check : ℚ → ℚ → Except String Unit) : List TestOutcome :=
  testCases.map fun tc => harnessOutcome (run tc.1) (fun o => check o tc.2)

/-! ## The Fourier-distance check (part_000) -/

/-- Scalar `np.allclose(a, b, rtol, atol)`: `|a - b| <= atol + rtol * |b|`
(numpy's documented formula). Modelled over `ℚ` since all values compared
by the harness are exact decimal literals. -/
def allclose (rtol atol a b : ℚ) : Bool := |a - b| ≤ atol + rtol * |b|

/-- The `check` function of the Fourier-distance exercise:
`assert np.allclose(solution_output, expected_output, rtol=1e-2)`; numpy's
default absolute tolerance is `atol=1e-8`.  On failure it raises an
`AssertionError` (source message: "Your calculated squared distance isn't
quite right."). -/
def fourier_check (solution expected : ℚ) : Except String Unit :=
  if allclose (1/100) (1/100000000) solution expected then .ok ()
  else .error "Your calculated squared distance is not quite right."

/-- Expected output of the first Fourier-distance test case. -/
def fourierExpected0 : ℚ := 0.0036766085933034303

/-- The embedded `test_cases` of part_000 (input string, parsed expected
output). -/
def fourierTestCases : List (String × ℚ) :=
  [("[[-1.12422548e-01,  0.0, 9.47909940e-02, 0.0, 0.0, 9.47909940e-02, 0.0],[2,2,2,3,4,5]]",
    0.0036766085933034303),
   ("[[-2.51161988e-01, 0.0, 1.22546112e-01, 0.0, 0.0,  1.22546112e-01, 0.0],[1.1,0.3,0.4,0.6,0.8,0.9]]",
    0.6538589174369286)]

/-! ## Single-qubit universality notebook: get_matrix and error -/

noncomputable section

/-- pennylane's `qml.matrix(qml.RZ(θ, 0))`: `diag(e^{-iθ/2}, e^{iθ/2})`. -/
def RZ (θ : ℝ) : Matrix (Fin 2) (Fin 2) ℂ :=
  !![Complex.exp (-(θ/2) * Complex.I), 0; 0, Complex.exp ((θ/2) * Complex.I)]

/-- pennylane's `qml.matrix(qml.RX(θ, 0))`:
`[[cos(θ/2), -i sin(θ/2)], [-i sin(θ/2), cos(θ/2)]]`. -/
def RX (θ : ℝ) : Matrix (Fin 2) (Fin 2) ℂ :=
  !![(Real.cos (θ/2) : ℂ), -Complex.I * (Real.sin (θ/2) : ℂ);
     -Complex.I * (Real.sin (θ/2) : ℂ), (Real.cos (θ/2) : ℂ)]

/-- `get_matrix` from the Universality notebook:
`com = np.cos(phi) + 1j*np.sin(phi)`;
`U = RZ(alpha) @ (RX(beta) @ RZ(gamma))`; returns `U * com`. -/
def get_matrix (alpha beta gamma phi : ℝ) : Matrix (Fin 2) (Fin 2) ℂ :=
  ((Real.cos phi : ℂ) + Complex.I * (Real.sin phi : ℂ)) •
    (RZ alpha * (RX beta * RZ gamma))

/-- `np.linalg.norm` of a real 2×2 matrix: the Frobenius norm. -/
def frobenius_norm (A : Matrix (Fin 2) (Fin 2) ℝ) : ℝ :=
  Real.sqrt (A 0 0 ^ 2 + A 0 1 ^ 2 + A 1 0 ^ 2 + A 1 1 ^ 2)

/-- `error` from the Universality notebook:
`dif = U - get_matrix(params)`; returns `np.linalg.norm(np.real(dif))`. -/
def error (U : Matrix (Fin 2) (Fin 2) ℂ) (alpha beta gamma phi : ℝ) : ℝ :=
  frobenius_norm ((U - get_matrix alpha beta gamma phi).map Complex.re)

end

/-! ## Bitflip / fidelity notebook (part_001)

The device is 2-qubit `default.mixed`; `qml.state()` on it returns a
density matrix.  The noiseless `circuit` applies only unitaries to the
pure state |00⟩, so its density matrix is `pureDensity bell` where `bell`
is the state vector after the Hadamard and CNOT. -/

noncomputable section

/-- A 2-qubit pure state: amplitude at basis |ab⟩ (wire 0 = a, wire 1 = b;
`false` = |0⟩). -/
def S2 := Bool → Bool → ℂ

def ket00 : S2 := fun a b => if a || b then 0 else 1

/-- `qml.Hadamard(wires=0)` on a 2-qubit state vector. -/
def H2_0 (ψ : S2) : S2 := fun a b =>
  (ψ false b + (if a then -1 else 1) * ψ true b) / (Real.sqrt 2 : ℂ)

/-- `qml.CNOT(wires=[0, 1])` on a 2-qubit state vector. -/
def CNOT2_01 (ψ : S2) : S2 := fun a b => if a then ψ a (!b) else ψ a b

/-- The state produced by `circuit` of part_001: Hadamard on wire 0 then
CNOT, applied to |00⟩. -/
def bell : S2 := CNOT2_01 (H2_0 ket00)

/-- A 2-qubit density matrix (row index |ab⟩, column index |cd⟩). -/
def D2 := Bool → Bool → Bool → Bool → ℂ

/-- Density matrix |ψ⟩⟨ψ| of a pure state. -/
def pureDensity (ψ : S2) : D2 := fun a b c d => ψ a b * conj (ψ c d)

/-- `qml.BitFlip(p, wires=0)` as a channel on density matrices:
ρ ↦ (1-p)·ρ + p·(X₀ ρ X₀). -/
def bitFlip0 (p : ℝ) (ρ : D2) : D2 := fun a b c d =>
  (1 - (p:ℂ)) * ρ a b c d + (p:ℂ) * ρ (!a) b (!c) d

/-- `qml.BitFlip(p, wires=1)` as a channel on density matrices. -/
def bitFlip1 (p : ℝ) (ρ : D2) : D2 := fun a b c d =>
  (1 - (p:ℂ)) * ρ a b c d + (p:ℂ) * ρ a (!b) c (!d)

/-- `bitflip_circuit(p)` of part_001: Hadamard, CNOT, then `BitFlip(p)`
on wire 0 and on wire 1. -/
def bitflip_circuit (p : ℝ) : D2 := bitFlip1 p (bitFlip0 p (pureDensity bell))

def sumB (f : Bool → ℂ) : ℂ := f false + f true

/-- `qml.math.fidelity(ρ, σ)` in the case used by the notebook, where the
second argument σ is the pure state |ψ⟩⟨ψ|: the general
(tr√(√ρ σ √ρ))² formula reduces to the overlap ⟨ψ|ρ|ψ⟩. -/
def fidelityPure (ρ : D2) (ψ : S2) : ℝ :=
  (sumB fun a => sumB fun b => sumB fun c => sumB fun d =>
    conj (ψ a b) * ρ a b c d * ψ c d).re

/-- `np.round_(·, decimals=5)` on one entry. -/
def round5 (x : ℝ) : ℝ := (round (x * 100000) : ℝ) / 100000

/-- `fidelities` of part_001: the fidelity of `bitflip_circuit(p)` against
the noiseless `circuit()` state for each probability, rounded to 5
decimals. -/
def fidelities (probs : List ℝ) : List ℝ :=
  probs.map fun p => round5 (fidelityPure (bitflip_circuit p) bell)

/-! ## Parameter-shift notebook

The circuit applies `qml.RY(params[0], 0)` and `qml.RX(params[1], 1)` to
|00⟩ on a 2-qubit device and returns `expval(PauliZ(0) + PauliZ(1))`. -/

/-- `qml.RY(θ, 0)` on a 2-qubit state vector:
RY(θ) = [[cos(θ/2), -sin(θ/2)], [sin(θ/2), cos(θ/2)]]. -/
def RY2_0 (θ : ℝ) (ψ : S2) : S2 := fun a b =>
  if a then (Real.sin (θ/2) : ℂ) * ψ false b + (Real.cos (θ/2) : ℂ) * ψ true b
  else (Real.cos (θ/2) : ℂ) * ψ false b - (Real.sin (θ/2) : ℂ) * ψ true b

/-- `qml.RX(θ, 1)` on a 2-qubit state vector:
RX(θ) = [[cos(θ/2), -i sin(θ/2)], [-i sin(θ/2), cos(θ/2)]]. -/
def RX2_1 (θ : ℝ) (ψ : S2) : S2 := fun a b =>
  if b then -Complex.I * (Real.sin (θ/2) : ℂ) * ψ a false + (Real.cos (θ/2) : ℂ) * ψ a true
  else (Real.cos (θ/2) : ℂ) * ψ a false + -Complex.I * (Real.sin (θ/2) : ℂ) * ψ a true

/-- Eigenvalue of PauliZ on a basis bit. -/
def zval (a : Bool) : ℝ := if a then -1 else 1

/-- `qml.expval(qml.PauliZ(0) + qml.PauliZ(1))` of a 2-qubit state. -/
def expvalZZ (ψ : S2) : ℝ :=
  (zval false + zval false) * Complex.normSq (ψ false false) +
  (zval false + zval true) * Complex.normSq (ψ false true) +
  (zval true + zval false) * Complex.normSq (ψ true false) +
  (zval true + zval true) * Complex.normSq (ψ true true)

/-- `circuit` of the Gradients notebook: RY(params[0]) on wire 0,
RX(params[1]) on wire 1, expectation of Z₀ + Z₁. -/
def circuit (p0 p1 : ℝ) : ℝ := expvalZZ (RX2_1 p1 (RY2_0 p0 ket00))

/-- `my_parameter_shift_grad` of the Gradients notebook:
`gradient[i] = (circuit(params + shift eᵢ) - circuit(params - shift eᵢ)) / (2 sin(shift))`,
then `np.round_(gradient, 5).tolist()`. -/
def my_parameter_shift_grad (p0 p1 shift : ℝ) : List ℝ :=
  [round5 ((circuit (p0 + shift) p1 - circuit (p0 - shift) p1) / (2 * Real.sin shift)),
   round5 ((circuit p0 (p1 + shift) - circuit p0 (p1 - shift)) / (2 * Real.sin shift))]

/-! ## The qRAM script (appended to the Universality notebook file)

A 4-qubit circuit on `wires=range(4)`: wire i is the i-th `Bool` argument
of a `QState`; wires 0-2 are the address register (wire 0 the most
significant bit, matching `format(address, "03b")`), wire 3 the data
qubit.  `qml.CRY(θ).inv()` is `CRY(-θ)`. -/

def QState := Bool → Bool → Bool → Bool → ℂ

def initState : QState := fun b0 b1 b2 b3 => if b0 || b1 || b2 || b3 then 0 else 1

def H4_0 (ψ : QState) : QState := fun b0 b1 b2 b3 =>
  (ψ false b1 b2 b3 + (if b0 then -1 else 1) * ψ true b1 b2 b3) / (Real.sqrt 2 : ℂ)

def H4_1 (ψ : QState) : QState := fun b0 b1 b2 b3 =>
  (ψ b0 false b2 b3 + (if b1 then -1 else 1) * ψ b0 true b2 b3) / (Real.sqrt 2 : ℂ)

def H4_2 (ψ : QState) : QState := fun b0 b1 b2 b3 =>
  (ψ b0 b1 false b3 + (if b2 then -1 else 1) * ψ b0 b1 true b3) / (Real.sqrt 2 : ℂ)

def X4_0 (ψ : QState) : QState := fun b0 b1 b2 b3 => ψ (!b0) b1 b2 b3

def X4_1 (ψ : QState) : QState := fun b0 b1 b2 b3 => ψ b0 (!b1) b2 b3

def X4_2 (ψ : QState) : QState := fun b0 b1 b2 b3 => ψ b0 b1 (!b2) b3

def CNOT4_01 (ψ : QState) : QState := fun b0 b1 b2 b3 =>
  if b0 then ψ b0 (!b1) b2 b3 else ψ b0 b1 b2 b3

def Toffoli4_012 (ψ : QState) : QState := fun b0 b1 b2 b3 =>
  if b0 && b1 then ψ b0 b1 (!b2) b3 else ψ b0 b1 b2 b3

/-- `qml.CRY(θ, wires=[2, 3])`. -/
def CRY4_23 (θ : ℝ) (ψ : QState) : QState := fun b0 b1 b2 b3 =>
  if b2 then
    (if b3 then (Real.sin (θ/2) : ℂ) * ψ b0 b1 b2 false + (Real.cos (θ/2) : ℂ) * ψ b0 b1 b2 true
     else (Real.cos (θ/2) : ℂ) * ψ b0 b1 b2 false - (Real.sin (θ/2) : ℂ) * ψ b0 b1 b2 true)
  else ψ b0 b1 b2 b3

/-- `qml.CRY(θ, wires=[1, 3])`. -/
def CRY4_13 (θ : ℝ) (ψ : QState) : QState := fun b0 b1 b2 b3 =>
  if b1 then
    (if b3 then (Real.sin (θ/2) : ℂ) * ψ b0 b1 b2 false + (Real.cos (θ/2) : ℂ) * ψ b0 b1 b2 true
     else (Real.cos (θ/2) : ℂ) * ψ b0 b1 b2 false - (Real.sin (θ/2) : ℂ) * ψ b0 b1 b2 true)
  else ψ b0 b1 b2 b3

/-- `qml.CRY(θ, wires=[0, 3])`. -/
def CRY4_03 (θ : ℝ) (ψ : QState) : QState := fun b0 b1 b2 b3 =>
  if b0 then
    (if b3 then (Real.sin (θ/2) : ℂ) * ψ b0 b1 b2 false + (Real.cos (θ/2) : ℂ) * ψ b0 b1 b2 true
     else (Real.cos (θ/2) : ℂ) * ψ b0 b1 b2 false - (Real.sin (θ/2) : ℂ) * ψ b0 b1 b2 true)
  else ψ b0 b1 b2 b3

/-- RY(θ) applied to wire 3 unconditionally (the specification of a
triply-controlled rotation, restricted to its firing branch). -/
def ryOn3 (θ : ℝ) (ψ : QState) : QState := fun b0 b1 b2 b3 =>
  if b3 then (Real.sin (θ/2) : ℂ) * ψ b0 b1 b2 false + (Real.cos (θ/2) : ℂ) * ψ b0 b1 b2 true
  else (Real.cos (θ/2) : ℂ) * ψ b0 b1 b2 false - (Real.sin (θ/2) : ℂ) * ψ b0 b1 b2 true

/-- The 9-gate body of one address block of the qRAM circuit, in source
order: CRY(θ/2, [2,3]); Toffoli(0,1,2); CRY(θ/2, [2,3]).inv();
Toffoli(0,1,2); CRY(θ/4, [1,3]); CNOT(0,1); CRY(θ/4, [1,3]).inv();
CNOT(0,1); CRY(θ/4, [0,3]).  (Gates are applied innermost first.) -/
def cccRY (θ : ℝ) (ψ : QState) : QState :=
  CRY4_03 (θ/4) (CNOT4_01 (CRY4_13 (-(θ/4)) (CNOT4_01 (CRY4_13 (θ/4)
    (Toffoli4_012 (CRY4_23 (-(θ/2)) (Toffoli4_012 (CRY4_23 (θ/2) ψ))))))))

/-- The PauliX conjugation of one address block: for each index i of
`format(address, "03b")`, a PauliX on wire i when that binary digit is
'0' (digit 0 is the most significant bit, `testBit 2`). -/
def addressPrep (a : ℕ) (ψ : QState) : QState :=
  (if a.testBit 0 then id else X4_2) ((if a.testBit 1 then id else X4_1)
    ((if a.testBit 2 then id else X4_0) ψ))

/-- One iteration of the `for address, theta in enumerate(thetas)` loop:
X-prep, the 9-gate controlled-rotation body, X-unprep. -/
def addressBlock (a : ℕ) (θ : ℝ) (ψ : QState) : QState :=
  addressPrep a (cccRY θ (addressPrep a ψ))

/-- The loop over `enumerate(thetas)` starting at a given address. -/
def applyBlocks : ℕ → List ℝ → QState → QState
  | _, [], ψ => ψ
  | a, θ :: rest, ψ => applyBlocks (a+1) rest (addressBlock a θ ψ)

/-- `qRAM(thetas)`: Hadamard on wires 0-2, then the address blocks for
`enumerate(thetas)`; returns `qml.state()`. -/
def qRAM (thetas : List ℝ) : QState :=
  applyBlocks 0 thetas (H4_2 (H4_1 (H4_0 initState)))

/-- The address encoded by the three address bits (wire 0 most
significant). -/
def addr (b0 b1 b2 : Bool) : ℕ := 4 * b0.toNat + 2 * b1.toNat + b2.toNat

/-- Identity or negation on one bit, depending on the corresponding bit
of the address. -/
def mapBit (t b : Bool) : Bool := if t then b else !b

/-- `np.round(·, 6)` on one entry, as used by the script's printing of
`float(i.real.round(6))`. -/
def round6 (x : ℝ) : ℝ := (round (x * 1000000) : ℝ) / 1000000

/-- The list printed by the `__main__` block of the qRAM script on parsed
input angles: basis states in pennylane order (wire 0 most significant),
rounded real parts. -/
def qRAM_main_output (thetas : List ℝ) : List ℝ :=
  (List.range 16).map fun k =>
    round6 ((qRAM thetas (k.testBit 3) (k.testBit 2) (k.testBit 1) (k.testBit 0)).re)

/-- The claimed closed form of the qRAM amplitudes: a factor 1/√8, and on
each address branch either cos(θ_a/2) (data qubit |0⟩) or sin(θ_a/2)
(data qubit |1⟩); addresses beyond the end of the input list keep the
data qubit at |0⟩. -/
def amp (ts : List ℝ) (b0 b1 b2 b3 : Bool) : ℝ :=
  (Real.sqrt 8)⁻¹ * (if addr b0 b1 b2 < ts.length then
      (if b3 then Real.sin (ts.getD (addr b0 b1 b2) 0 / 2)
       else Real.cos (ts.getD (addr b0 b1 b2) 0 / 2))
    else (if b3 then 0 else 1))

end

/-! ## Theorems about the harness (C2, C3) -/

/-- The acceptance condition of the Fourier-distance check, as an explicit
inequality: `1e-8 + 1e-2 * 0.0036766085933034303` is the rational
`36776085933034303 / 10^21`. -/
theorem fourier_check_ok_iff (x : ℚ) :
    fourier_check x fourierExpected0 = Except.ok () ↔
      |x - 0.0036766085933034303| ≤ 36776085933034303 / 1000000000000000000000 := by
  have habs : |fourierExpected0| = fourierExpected0 :=
    abs_of_pos (by norm_num [fourierExpected0])
  have hthr : (1/100000000 : ℚ) + (1/100) * |fourierExpected0| =
      36776085933034303 / 1000000000000000000000 := by
    rw [habs]; norm_num [fourierExpected0]
  have key : fourier_check x fourierExpected0 = Except.ok () ↔
      allclose (1/100) (1/100000000) x fourierExpected0 = true := by
    unfold fourier_check
    split <;> simp_all
  rw [key]
  unfold allclose
  rw [decide_eq_true_eq, hthr]
  exact Iff.rfl

theorem fourier_check_fails_on_one :
    fourier_check 1 fourierExpected0 =
      Except.error "Your calculated squared distance is not quite right." := by
  unfold fourier_check
  rw [if_neg]
  intro hcl
  have : |(1 : ℚ) - fourierExpected0| ≤ 1/100000000 + 1/100 * |fourierExpected0| := by
    simpa [allclose] using hcl
  rw [abs_of_pos (by norm_num [fourierExpected0] : (0:ℚ) < 1 - fourierExpected0),
    abs_of_pos (by norm_num [fourierExpected0])] at this
  norm_num [fourierExpected0] at this

/-- **C2** (code bug). The claim says the harness reports "Wrong Answer"
when the tolerance comparison fails.  In the code, a failing comparison
makes `check` raise an `AssertionError` inside the `else:` block, outside
the `try`, so it is never caught and "Wrong Answer" is never printed: the
`message == check(...)` test compares `0` with `None`, which is always
`False`.  First conjunct: on a concrete failing output (`1` against
expected `0.0036766085933034303`) the loop body ends in an uncaught
assertion; second conjunct: the "Wrong Answer" outcome is unreachable for
every run result and every check function. -/
theorem harness_wrong_answer_unreachable :
    harnessOutcome (Except.ok 1) (fun o => fourier_check o fourierExpected0) =
      TestOutcome.uncaughtAssertion
        "Your calculated squared distance is not quite right." ∧
    ∀ (r : Except String ℚ) (c : ℚ → Except String Unit),
      harnessOutcome r c ≠ TestOutcome.wrongAnswer := by
  constructor
  · show harnessOutcome _ _ = _
    rw [harnessOutcome]
    simp only [fourier_check_fails_on_one]
  · intro r c
    cases r with
    | error e => simp [harnessOutcome]
    | ok v =>
        cases h : c v with
        | error m => simp [harnessOutcome, h]
        | ok u => simp [harnessOutcome, h, zeroEqNone]

/-- **C3** (counterexample). The claim says the Fourier-distance check
accepts exactly the outputs within absolute difference 0.01 of 0.00368.
The output 0.01 is within 0.01 of 0.00368 but is rejected by the code,
whose `np.allclose` call uses a relative tolerance `rtol=1e-2`. -/
theorem fourier_check_not_absolute_tolerance :
    ¬ ((|(0.01 : ℚ) - 0.00368| ≤ 0.01) ↔
        fourier_check 0.01 fourierExpected0 = Except.ok ()) := by
  intro h
  have h1 : |(0.01 : ℚ) - 0.00368| ≤ 0.01 := by
    rw [abs_of_pos (by norm_num)]; norm_num
  have h2 := (fourier_check_ok_iff 0.01).mp (h.mp h1)
  rw [abs_of_pos (by norm_num)] at h2
  norm_num at h2

/-- **C3** (amended). The Fourier-distance check is a relative-tolerance
comparison: a solution output `x` is accepted exactly when
`|x - 0.0036766085933034303| ≤ 1e-8 + 1e-2 * 0.0036766085933034303`
(numpy's `allclose` with `rtol=1e-2` and default `atol=1e-8`); the
right-hand side is the explicit rational below, about `3.678e-5`. -/
theorem fourier_check_relative_tolerance (x : ℚ) :
    fourier_check x fourierExpected0 = Except.ok () ↔
      |x - 0.0036766085933034303| ≤ 36776085933034303 / 1000000000000000000000 :=
  fourier_check_ok_iff x

/-! ## Theorems about get_matrix and error (C8, C9) -/

theorem conj_exp_mul_self (x : ℝ) :
    (starRingEnd ℂ) (Complex.exp ((x:ℂ) * Complex.I)) *
      Complex.exp ((x:ℂ) * Complex.I) = 1 := by
  rw [← Complex.exp_conj, ← Complex.exp_add]
  simp

theorem conj_cos_half (θ : ℝ) :
    (starRingEnd ℂ) (Complex.cos ((θ:ℂ)/2)) = Complex.cos ((θ:ℂ)/2) := by
  simp [← Complex.cos_conj, map_div₀, Complex.conj_ofReal, map_ofNat]

theorem conj_sin_half (θ : ℝ) :
    (starRingEnd ℂ) (Complex.sin ((θ:ℂ)/2)) = Complex.sin ((θ:ℂ)/2) := by
  simp [← Complex.sin_conj, map_div₀, Complex.conj_ofReal, map_ofNat]

theorem RZ_unitary (θ : ℝ) : (RZ θ)ᴴ * RZ θ = 1 := by
  have h1 := conj_exp_mul_self (-(θ/2))
  have h2 := conj_exp_mul_self (θ/2)
  push_cast at h1 h2
  simp only [neg_mul] at h1
  ext i j
  fin_cases i <;> fin_cases j <;>
    simp [RZ, Matrix.conjTranspose_apply, Matrix.mul_apply, Fin.sum_univ_two, Matrix.one_apply]
  · exact h1
  · exact h2

theorem RX_unitary (θ : ℝ) : (RX θ)ᴴ * RX θ = 1 := by
  have hcs : Complex.sin ((θ:ℂ)/2)^2 + Complex.cos ((θ:ℂ)/2)^2 = 1 :=
    Complex.sin_sq_add_cos_sq _
  have hI : (Complex.I)^2 = -1 := Complex.I_sq
  ext i j
  fin_cases i <;> fin_cases j <;>
    simp [RX, Matrix.conjTranspose_apply, Matrix.mul_apply, Fin.sum_univ_two,
      Matrix.one_apply, conj_cos_half, conj_sin_half]
  · linear_combination hcs - (Complex.sin ((θ:ℂ)/2))^2 * hI
  · ring
  · ring
  · linear_combination hcs - (Complex.sin ((θ:ℂ)/2))^2 * hI

theorem mul_unitary {A B : Matrix (Fin 2) (Fin 2) ℂ}
    (hA : Aᴴ * A = 1) (hB : Bᴴ * B = 1) : (A * B)ᴴ * (A * B) = 1 := by
  rw [Matrix.conjTranspose_mul, Matrix.mul_assoc, ← Matrix.mul_assoc Aᴴ, hA,
    Matrix.one_mul, hB]

/-- **C8**. For every real parameter vector (alpha, beta, gamma, phi) the
2×2 matrix returned by `get_matrix` — the global phase `cos φ + i sin φ`
times `RZ(α)·RX(β)·RZ(γ)` — is unitary: its conjugate transpose times
itself is the identity. -/
theorem get_matrix_unitary (alpha beta gamma phi : ℝ) :
    (get_matrix alpha beta gamma phi)ᴴ * get_matrix alpha beta gamma phi = 1 := by
  unfold get_matrix
  rw [Matrix.conjTranspose_smul, Matrix.smul_mul, Matrix.mul_smul, smul_smul]
  have hI : (Complex.I)^2 = -1 := Complex.I_sq
  have hcs : ((Real.sin phi : ℂ))^2 + ((Real.cos phi : ℂ))^2 = 1 := by
    exact_mod_cast congrArg (Complex.ofReal) (Real.sin_sq_add_cos_sq phi)
  have hphase : star ((Real.cos phi : ℂ) + Complex.I * (Real.sin phi : ℂ)) *
      ((Real.cos phi : ℂ) + Complex.I * (Real.sin phi : ℂ)) = 1 := by
    simp only [star_add, star_mul', Complex.star_def, Complex.conj_ofReal, Complex.conj_I]
    linear_combination hcs - ((Real.sin phi : ℂ))^2 * hI
  rw [hphase, one_smul]
  exact mul_unitary (RZ_unitary alpha) (mul_unitary (RX_unitary beta) (RZ_unitary gamma))

theorem get_matrix_zero : get_matrix 0 0 0 0 = 1 := by
  ext i j
  fin_cases i <;> fin_cases j <;>
    simp [get_matrix, RZ, RX, Matrix.mul_apply, Fin.sum_univ_two, Matrix.one_apply,
      Complex.exp_zero]

/-- **C9**. The `error` function of the Universality notebook depends only
on real parts: it equals the Frobenius norm of (real part of `U`) minus
(real part of `get_matrix(params)`); consequently there are a matrix `U`
and parameters with `U ≠ get_matrix(params)` yet `error = 0` (take the
parameters all zero, so `get_matrix` is the identity, and `U` the identity
with `i` added to its top-left entry). -/
theorem error_ignores_imaginary_parts :
    (∀ (U : Matrix (Fin 2) (Fin 2) ℂ) (a b c p : ℝ),
      error U a b c p =
        frobenius_norm (U.map Complex.re - (get_matrix a b c p).map Complex.re)) ∧
    (∃ (U : Matrix (Fin 2) (Fin 2) ℂ) (a b c p : ℝ),
      U ≠ get_matrix a b c p ∧ error U a b c p = 0) := by
  constructor
  · intro U a b c p
    unfold error
    have hmap : (U - get_matrix a b c p).map Complex.re =
        U.map Complex.re - (get_matrix a b c p).map Complex.re := by
      ext i j
      simp [Matrix.map_apply, Matrix.sub_apply]
    rw [hmap]
  · refine ⟨!![1 + Complex.I, 0; 0, 1], 0, 0, 0, 0, ?_, ?_⟩
    · rw [get_matrix_zero]
      intro h
      have h00 := congrFun (congrFun h 0) 0
      simp [Matrix.one_apply] at h00
    · unfold error
      rw [get_matrix_zero]
      have hz : ((!![1 + Complex.I, 0; 0, 1] -
          (1 : Matrix (Fin 2) (Fin 2) ℂ)).map Complex.re) = 0 := by
        ext i j
        fin_cases i <;> fin_cases j <;>
          simp [Matrix.map_apply, Matrix.sub_apply, Matrix.one_apply]
      rw [hz]
      unfold frobenius_norm
      norm_num

/-! ## Theorems about the bitflip / fidelity notebook (C5) -/

theorem bell_apply (a b : Bool) :
    bell a b = if a == b then ((Real.sqrt 2 : ℂ))⁻¹ else 0 := by
  cases a <;> cases b <;> simp [bell, CNOT2_01, H2_0, ket00, one_div]

theorem pureDensity_bell (a b c d : Bool) :
    pureDensity bell a b c d = if (a == b) && (c == d) then (1/2 : ℂ) else 0 := by
  have h2 : ((Real.sqrt 2 : ℝ) : ℂ) * ((Real.sqrt 2 : ℝ) : ℂ) = 2 := by
    norm_cast
    exact Real.mul_self_sqrt (by norm_num)
  cases a <;> cases b <;> cases c <;> cases d <;>
    simp [pureDensity, bell_apply, map_inv₀, Complex.conj_ofReal]
  all_goals (rw [← mul_inv, h2]; try norm_num)

/-- The fidelity between the bitflip circuit state and the Bell state, in
closed form: (1-p)² + p². -/
theorem fidelityPure_bitflip (p : ℝ) :
    fidelityPure (bitflip_circuit p) bell = (1-p)^2 + p^2 := by
  have h2 : ((Real.sqrt 2 : ℝ) : ℂ) * ((Real.sqrt 2 : ℝ) : ℂ) = 2 := by
    norm_cast
    exact Real.mul_self_sqrt (by norm_num)
  have hsum : (sumB fun a => sumB fun b => sumB fun c => sumB fun d =>
      conj (bell a b) * bitflip_circuit p a b c d * bell c d) =
      (((1-p)^2 + p^2 : ℝ) : ℂ) := by
    simp only [sumB, bitflip_circuit, bitFlip0, bitFlip1, pureDensity_bell, bell_apply,
      map_inv₀, Complex.conj_ofReal]
    norm_num
    ring_nf
    rw [show ((Real.sqrt 2 : ℝ) : ℂ)⁻¹ ^ 2 = (2:ℂ)⁻¹ by rw [sq, ← mul_inv, h2]]
    ring
  unfold fidelityPure
  rw [hsum, Complex.ofReal_re]

/-- **C5**. On the bitflip probabilities of the embedded test case the
`fidelities` function returns exactly the expected outputs
[0.905, 0.82, 0.745, 0.68, 0.625] (so in particular each entry is within
the 1e-4 relative tolerance of the check): for each p the fidelity of
`bitflip_circuit(p)` against the Bell state of `circuit` is (1-p)² + p²,
and rounding to 5 decimals reproduces the listed values. -/
theorem fidelities_expected_values :
    fidelities [0.05, 0.1, 0.15, 0.2, 0.25] = [0.905, 0.82, 0.745, 0.68, 0.625] ∧
    ∀ p : ℝ, fidelityPure (bitflip_circuit p) bell = (1-p)^2 + p^2 := by
  constructor
  · unfold fidelities
    simp only [List.map, fidelityPure_bitflip, round5]
    norm_num [round_eq]
  · exact fidelityPure_bitflip

/-! ## Theorems about the parameter-shift notebook (C6, C7) -/

/-- The circuit expectation value in closed form: cos(θ₀) + cos(θ₁). -/
theorem circuit_eq (p0 p1 : ℝ) : circuit p0 p1 = Real.cos p0 + Real.cos p1 := by
  have e : ∀ x : ℝ, Real.cos (x/2)^2 = 1/2 + Real.cos x/2 := fun x => by
    rw [Real.cos_sq, show 2*(x/2) = x by ring]
  have f : ∀ x : ℝ, Real.sin (x/2)^2 = 1/2 - Real.cos x/2 := fun x => by
    rw [Real.sin_sq, e]; ring
  have hc : ∀ x : ℝ, Complex.normSq (Complex.cos ((x:ℂ)/2)) = Real.cos (x/2)^2 := fun x => by
    rw [show ((x:ℂ)/2) = ((x/2 : ℝ) : ℂ) by push_cast; ring, ← Complex.ofReal_cos,
      Complex.normSq_ofReal]; ring
  have hs : ∀ x : ℝ, Complex.normSq (Complex.sin ((x:ℂ)/2)) = Real.sin (x/2)^2 := fun x => by
    rw [show ((x:ℂ)/2) = ((x/2 : ℝ) : ℂ) by push_cast; ring, ← Complex.ofReal_sin,
      Complex.normSq_ofReal]; ring
  unfold circuit expvalZZ zval RX2_1 RY2_0 ket00
  simp [Complex.normSq_mul, Complex.normSq_ofReal, hc, hs]
  linear_combination (2*Real.cos (p1/2)^2) * e p0 + (1 + Real.cos p0) * e p1 -
    (2*Real.sin (p1/2)^2) * f p0 - (1 - Real.cos p0) * f p1

/-- The parameter-shift quotient collapses to the exact gradient entries
-sin(θ₀), -sin(θ₁), independently of the shift, whenever sin(shift) ≠ 0. -/
theorem pshift_exact (p0 p1 s : ℝ) (hs : Real.sin s ≠ 0) :
    my_parameter_shift_grad p0 p1 s = [round5 (-Real.sin p0), round5 (-Real.sin p1)] := by
  unfold my_parameter_shift_grad
  have e1 : (circuit (p0 + s) p1 - circuit (p0 - s) p1) / (2 * Real.sin s) = -Real.sin p0 := by
    rw [circuit_eq, circuit_eq, Real.cos_add, Real.cos_sub]
    field_simp
    ring
  have e2 : (circuit p0 (p1 + s) - circuit p0 (p1 - s)) / (2 * Real.sin s) = -Real.sin p1 := by
    rw [circuit_eq, circuit_eq, Real.cos_add, Real.cos_sub]
    field_simp
    ring
  rw [e1, e2]

/-- **C7**. For every parameter pair and every shift s with sin(s) ≠ 0, the
circuit expectation value is cos(θ₀) + cos(θ₁), and
`my_parameter_shift_grad([θ₀, θ₁], s)` equals the exact gradient
(-sin(θ₀), -sin(θ₁)) rounded to 5 decimal places; in particular the result
does not depend on the finite shift s. -/
theorem parameter_shift_rule_exact (p0 p1 s : ℝ) (hs : Real.sin s ≠ 0) :
    circuit p0 p1 = Real.cos p0 + Real.cos p1 ∧
    my_parameter_shift_grad p0 p1 s = [round5 (-Real.sin p0), round5 (-Real.sin p1)] :=
  ⟨circuit_eq p0 p1, pshift_exact p0 p1 s hs⟩

/-- Witness for C7 at θ₀ = θ₁ = 0, s = π/2. -/
theorem parameter_shift_rule_exact_witness :
    Real.sin (Real.pi/2) ≠ 0 ∧
    (circuit 0 0 = Real.cos 0 + Real.cos 0 ∧
     my_parameter_shift_grad 0 0 (Real.pi/2) =
       [round5 (-Real.sin 0), round5 (-Real.sin 0)]) := by
  have h : Real.sin (Real.pi/2) ≠ 0 := by rw [Real.sin_pi_div_two]; norm_num
  exact ⟨h, parameter_shift_rule_exact 0 0 (Real.pi/2) h⟩

/-! ### Numeric bounds on sin(0.75) and sin(1), for the concrete test case

`Real.sin` is the sum of its alternating power series (`Real.hasSum_sin`);
the tail after the degree-9 partial sum is bounded through the factorial
growth `(2i+11)! ≥ 11! · 156^i` and a geometric series. -/

theorem factorial_growth (i : ℕ) :
    Nat.factorial 11 * 156^i ≤ Nat.factorial (2*i + 11) := by
  induction i with
  | zero => simp
  | succ n ih =>
      have h2 : (156:ℕ) ≤ ((2*n+11) + 1 + 1) * ((2*n+11) + 1) := by
        calc (156:ℕ) = 13 * 12 := by norm_num
          _ ≤ ((2*n+11) + 1 + 1) * ((2*n+11) + 1) := Nat.mul_le_mul (by omega) (by omega)
      have hstep : Nat.factorial (2*n + 11) * 156 ≤ Nat.factorial (2*(n+1) + 11) := by
        have h1 : 2*(n+1) + 11 = ((2*n+11) + 1) + 1 := by ring
        rw [h1, Nat.factorial_succ, Nat.factorial_succ]
        calc Nat.factorial (2*n+11) * 156 = 156 * Nat.factorial (2*n+11) := by ring
          _ ≤ (((2*n+11) + 1 + 1) * ((2*n+11) + 1)) * Nat.factorial (2*n+11) :=
              Nat.mul_le_mul_right _ h2
          _ = ((2*n+11) + 1 + 1) * (((2*n+11) + 1) * Nat.factorial (2*n+11)) := by ring
      calc Nat.factorial 11 * 156^(n+1) = (Nat.factorial 11 * 156^n) * 156 := by ring
        _ ≤ Nat.factorial (2*n + 11) * 156 := Nat.mul_le_mul_right _ ih
        _ ≤ Nat.factorial (2*(n+1) + 11) := hstep

/-- Degree-9 Taylor approximation of sin with a certified remainder on
[-1, 1]. -/
theorem sin_taylor_bound (x : ℝ) (hx : |x| ≤ 1) :
    |Real.sin x - (x - x^3/6 + x^5/120 - x^7/5040 + x^9/362880)| ≤
      |x|^11 * (156/(155 * 39916800)) := by
  have hsum := Real.hasSum_sin x
  have hsummable := hsum.summable
  have hsplit := sum_add_tsum_nat_add 5 hsummable
  have htsum := hsum.tsum_eq
  have hpartial : (∑ i ∈ Finset.range 5,
      (-1)^i * x^(2*i+1) / (Nat.factorial (2*i+1) : ℝ)) =
      x - x^3/6 + x^5/120 - x^7/5040 + x^9/362880 := by
    simp [Finset.sum_range_succ, Nat.factorial]
    ring
  have hT : Real.sin x - (x - x^3/6 + x^5/120 - x^7/5040 + x^9/362880) =
      tsum (fun i : ℕ => (-1)^(i+5) * x^(2*(i+5)+1) / (Nat.factorial (2*(i+5)+1) : ℝ)) := by
    rw [← hpartial, ← htsum, ← hsplit]
    ring
  have hterm : ∀ i : ℕ, |(-1)^(i+5) * x^(2*(i+5)+1) / (Nat.factorial (2*(i+5)+1) : ℝ)| ≤
      |x|^11 / 39916800 * (1/156)^i := by
    intro i
    have hfac : ((Nat.factorial 11 * 156^i : ℕ) : ℝ) ≤ (Nat.factorial (2*i + 11) : ℝ) := by
      exact_mod_cast factorial_growth i
    have hidx : 2*(i+5)+1 = 2*i + 11 := by ring
    rw [abs_div, abs_mul, abs_pow, abs_pow, abs_neg, abs_one, one_pow, one_mul,
      Nat.abs_cast, hidx]
    have hpow : |x|^(2*i + 11) ≤ |x|^11 :=
      pow_le_pow_of_le_one (abs_nonneg x) hx (by omega)
    calc |x|^(2*i+11) / (Nat.factorial (2*i+11) : ℝ)
        ≤ |x|^11 / ((Nat.factorial 11 * 156^i : ℕ) : ℝ) := by
          apply div_le_div₀ (by positivity) hpow (by positivity) hfac
      _ = |x|^11 / 39916800 * (1/156)^i := by
          push_cast
          rw [div_pow, one_pow, div_mul_div_comm, mul_one]
          norm_num [Nat.factorial]
  have hgsum : Summable (fun i : ℕ => |x|^11/39916800 * (1/156)^i) :=
    (summable_geometric_of_lt_one (by norm_num) (by norm_num)).mul_left _
  have habs : Summable (fun i : ℕ =>
      |(-1)^(i+5) * x^(2*(i+5)+1) / (Nat.factorial (2*(i+5)+1) : ℝ)|) :=
    Summable.of_nonneg_of_le (fun i => abs_nonneg _) hterm hgsum
  have h1 : |tsum (fun i : ℕ => (-1)^(i+5) * x^(2*(i+5)+1) / (Nat.factorial (2*(i+5)+1) : ℝ))| ≤
      tsum (fun i : ℕ => |(-1)^(i+5) * x^(2*(i+5)+1) / (Nat.factorial (2*(i+5)+1) : ℝ)|) := by
    have := norm_tsum_le_tsum_norm (f := fun i : ℕ =>
      (-1)^(i+5) * x^(2*(i+5)+1) / (Nat.factorial (2*(i+5)+1) : ℝ))
      (by simpa only [Real.norm_eq_abs] using habs)
    simpa only [Real.norm_eq_abs] using this
  have h2 : (tsum (fun i : ℕ => |(-1)^(i+5) * x^(2*(i+5)+1) / (Nat.factorial (2*(i+5)+1) : ℝ)|)) ≤
      tsum (fun i : ℕ => |x|^11/39916800 * (1/156)^i) :=
    tsum_le_tsum hterm habs hgsum
  have h3 : (tsum (fun i : ℕ => |x|^11/39916800 * (1/156)^i)) = |x|^11 * (156/(155 * 39916800)) := by
    rw [tsum_mul_left, tsum_geometric_of_lt_one (by norm_num) (by norm_num)]
    norm_num
    ring
  rw [hT]
  exact le_trans h1 (le_trans h2 (le_of_eq h3))

theorem round5_neg_sin_three_quarters : round5 (-Real.sin 0.75) = -0.68164 := by
  have hb := sin_taylor_bound 0.75 (by rw [abs_of_pos] <;> norm_num)
  rw [show |(0.75:ℝ)| = 0.75 from abs_of_pos (by norm_num)] at hb
  obtain ⟨hlo, hhi⟩ := abs_le.mp hb
  unfold round5
  rw [round_eq]
  have hfloor : ⌊-Real.sin 0.75 * 100000 + 1/2⌋ = (-68164 : ℤ) := by
    apply Int.floor_eq_iff.mpr
    constructor
    · push_cast
      nlinarith [hhi]
    · push_cast
      nlinarith [hlo]
  rw [hfloor]
  norm_num

theorem round5_neg_sin_one : round5 (-Real.sin 1) = -0.84147 := by
  have hb := sin_taylor_bound 1 (by norm_num)
  norm_num at hb
  obtain ⟨hlo, hhi⟩ := abs_le.mp hb
  unfold round5
  rw [round_eq]
  have hfloor : ⌊-Real.sin 1 * 100000 + 1/2⌋ = (-84147 : ℤ) := by
    apply Int.floor_eq_iff.mpr
    constructor
    · push_cast
      nlinarith [hhi]
    · push_cast
      nlinarith [hlo]
  rw [hfloor]
  norm_num

/-- **C6**. On the embedded test case (params = [0.75, 1.0], shift = 1.23)
`my_parameter_shift_grad` returns exactly [-0.68164, -0.84147] (so in
particular each entry is within the 1e-4 relative tolerance of the check):
the shift quotient equals the exact gradient entries -sin(0.75) and
-sin(1.0), and rounding to 5 decimals gives the listed values. -/
theorem grad_test_case_values :
    my_parameter_shift_grad 0.75 1 1.23 = [-0.68164, -0.84147] := by
  have hs : Real.sin 1.23 ≠ 0 := by
    apply ne_of_gt
    apply Real.sin_pos_of_pos_of_lt_pi (by norm_num)
    nlinarith [Real.pi_gt_three]
  rw [pshift_exact 0.75 1 1.23 hs, round5_neg_sin_three_quarters, round5_neg_sin_one]


/-! ## Theorems about the qRAM script (C1, C10) and the script interfaces (C4) -/

theorem ccRY_action (α : ℝ) (ψ : QState) (b0 b1 b2 b3 : Bool) :
    CRY4_03 α (CNOT4_01 (CRY4_13 (-α) (CNOT4_01 (CRY4_13 α ψ)))) b0 b1 b2 b3 =
      if b0 && b1 then ryOn3 (2*α) ψ b0 b1 b2 b3 else ψ b0 b1 b2 b3 := by
  have hcs : Complex.sin ((α:ℂ)/2)^2 + Complex.cos ((α:ℂ)/2)^2 = 1 :=
    Complex.sin_sq_add_cos_sq _
  have hcos : Complex.cos ((α:ℂ)) = Complex.cos ((α:ℂ)/2)^2 - Complex.sin ((α:ℂ)/2)^2 := by
    have h := Complex.cos_two_mul' ((α:ℂ)/2)
    rwa [show 2*((α:ℂ)/2) = (α:ℂ) by ring] at h
  have hsin : Complex.sin ((α:ℂ)) = 2 * Complex.sin ((α:ℂ)/2) * Complex.cos ((α:ℂ)/2) := by
    have h := Complex.sin_two_mul ((α:ℂ)/2)
    rwa [show 2*((α:ℂ)/2) = (α:ℂ) by ring] at h
  cases b0 <;> cases b1 <;> cases b3 <;>
    simp [CRY4_03, CNOT4_01, CRY4_13, ryOn3, neg_div, Real.cos_neg, Real.sin_neg]
  · linear_combination (ψ false true b2 false) * hcs
  · linear_combination (ψ false true b2 true) * hcs
  · linear_combination (ψ true false b2 false) * hcs
  · linear_combination (ψ true false b2 true) * hcs
  · linear_combination (- ψ true true b2 false) * hcos + (ψ true true b2 true) * hsin
  · linear_combination (- ψ true true b2 false) * hsin + (- ψ true true b2 true) * hcos

theorem cccRY_action (θ : ℝ) (ψ : QState) (b0 b1 b2 b3 : Bool) :
    cccRY θ ψ b0 b1 b2 b3 =
      if b0 && b1 && b2 then ryOn3 θ ψ b0 b1 b2 b3 else ψ b0 b1 b2 b3 := by
  have hcs : Complex.sin ((θ:ℂ)/2/2)^2 + Complex.cos ((θ:ℂ)/2/2)^2 = 1 :=
    Complex.sin_sq_add_cos_sq _
  have hcos : Complex.cos ((θ:ℂ)/2) = Complex.cos ((θ:ℂ)/2/2)^2 - Complex.sin ((θ:ℂ)/2/2)^2 := by
    have h := Complex.cos_two_mul' ((θ:ℂ)/2/2)
    rwa [show 2*((θ:ℂ)/2/2) = (θ:ℂ)/2 by ring] at h
  have hsin : Complex.sin ((θ:ℂ)/2) = 2 * Complex.sin ((θ:ℂ)/2/2) * Complex.cos ((θ:ℂ)/2/2) := by
    have h := Complex.sin_two_mul ((θ:ℂ)/2/2)
    rwa [show 2*((θ:ℂ)/2/2) = (θ:ℂ)/2 by ring] at h
  unfold cccRY
  rw [ccRY_action, show (2*(θ/4) : ℝ) = θ/2 by ring]
  cases b0 <;> cases b1 <;> cases b2 <;> cases b3 <;>
    simp [ryOn3, Toffoli4_012, CRY4_23, neg_div, Real.cos_neg, Real.sin_neg]
  · linear_combination (ψ false false true false) * hcs
  · linear_combination (ψ false false true true) * hcs
  · linear_combination (ψ false true true false) * hcs
  · linear_combination (ψ false true true true) * hcs
  · linear_combination (ψ true false true false) * hcs
  · linear_combination (ψ true false true true) * hcs
  · linear_combination (ψ true true false false) * hcs
  · linear_combination (ψ true true false true) * hcs
  · linear_combination (- ψ true true true false) * hcos + (ψ true true true true) * hsin
  · linear_combination (- ψ true true true false) * hsin + (- ψ true true true true) * hcos

theorem addressPrep_apply (a : ℕ) (ψ : QState) (b0 b1 b2 b3 : Bool) :
    addressPrep a ψ b0 b1 b2 b3 =
      ψ (mapBit (a.testBit 2) b0) (mapBit (a.testBit 1) b1) (mapBit (a.testBit 0) b2) b3 := by
  unfold addressPrep mapBit
  cases h2 : a.testBit 2 <;> cases h1 : a.testBit 1 <;> cases h0 : a.testBit 0 <;>
    simp [X4_0, X4_1, X4_2]

theorem mapBit_invol (t b : Bool) : mapBit t (mapBit t b) = b := by
  cases t <;> cases b <;> rfl

theorem mapBit_and_iff (a : ℕ) (ha : a < 8) (b0 b1 b2 : Bool) :
    (mapBit (a.testBit 2) b0 && mapBit (a.testBit 1) b1 && mapBit (a.testBit 0) b2) = true ↔
      addr b0 b1 b2 = a := by
  revert b0 b1 b2
  interval_cases a <;> decide

theorem ryOn3_congr (x : ℝ) (χ ψ : QState) (m0 m1 m2 b0 b1 b2 b3 : Bool)
    (h1 : χ m0 m1 m2 false = ψ b0 b1 b2 false) (h2 : χ m0 m1 m2 true = ψ b0 b1 b2 true) :
    ryOn3 x χ m0 m1 m2 b3 = ryOn3 x ψ b0 b1 b2 b3 := by
  unfold ryOn3
  rw [h1, h2]

theorem addressBlock_action (a : ℕ) (ha : a < 8) (θ : ℝ) (ψ : QState) (b0 b1 b2 b3 : Bool) :
    addressBlock a θ ψ b0 b1 b2 b3 =
      if addr b0 b1 b2 = a then ryOn3 θ ψ b0 b1 b2 b3 else ψ b0 b1 b2 b3 := by
  unfold addressBlock
  rw [addressPrep_apply, cccRY_action]
  by_cases h : addr b0 b1 b2 = a
  · rw [if_pos ((mapBit_and_iff a ha b0 b1 b2).mpr h), if_pos h]
    apply ryOn3_congr
    · rw [addressPrep_apply]
      simp [mapBit_invol]
    · rw [addressPrep_apply]
      simp [mapBit_invol]
  · rw [if_neg ?hc, if_neg h, addressPrep_apply]
    · simp [mapBit_invol]
    case hc =>
      intro hcond
      exact h ((mapBit_and_iff a ha b0 b1 b2).mp hcond)

theorem addr_lt_8 (b0 b1 b2 : Bool) : addr b0 b1 b2 < 8 := by
  cases b0 <;> cases b1 <;> cases b2 <;> decide

theorem applyBlocks_apply (ts : List ℝ) : ∀ (a0 : ℕ) (ψ : QState),
    a0 + ts.length ≤ 8 → ∀ b0 b1 b2 b3,
    applyBlocks a0 ts ψ b0 b1 b2 b3 =
      if a0 ≤ addr b0 b1 b2 ∧ addr b0 b1 b2 < a0 + ts.length then
        ryOn3 (ts.getD (addr b0 b1 b2 - a0) 0) ψ b0 b1 b2 b3
      else ψ b0 b1 b2 b3 := by
  induction ts with
  | nil =>
      intro a0 ψ h b0 b1 b2 b3
      simp only [List.length_nil, add_zero]
      rw [if_neg (by omega)]
      rfl
  | cons θ rest ih =>
      intro a0 ψ h b0 b1 b2 b3
      have ha0 : a0 < 8 := by
        have := h
        simp [List.length_cons] at this
        omega
      have hlen : (θ :: rest).length = rest.length + 1 := by simp
      show applyBlocks (a0+1) rest (addressBlock a0 θ ψ) b0 b1 b2 b3 = _
      rw [ih (a0+1) (addressBlock a0 θ ψ) (by simp at h; omega) b0 b1 b2 b3]
      rcases Nat.lt_trichotomy (addr b0 b1 b2) a0 with hlt | heq | hgt
      · rw [if_neg (by omega), if_neg (by simp [hlen]; omega),
          addressBlock_action a0 ha0, if_neg (by omega)]
      · rw [if_neg (by omega), if_pos (by simp [hlen]; omega),
          addressBlock_action a0 ha0, if_pos heq, heq]
        simp
      · by_cases hin : addr b0 b1 b2 < a0 + 1 + rest.length
        · rw [if_pos ⟨by omega, hin⟩, if_pos ⟨by omega, by simp [hlen]; omega⟩]
          have hidx : addr b0 b1 b2 - a0 = (addr b0 b1 b2 - (a0+1)) + 1 := by omega
          rw [hidx, List.getD_cons_succ]
          apply ryOn3_congr
          · rw [addressBlock_action a0 ha0, if_neg (by omega)]
          · rw [addressBlock_action a0 ha0, if_neg (by omega)]
        · rw [if_neg (by omega), if_neg (by simp [hlen]; omega),
            addressBlock_action a0 ha0, if_neg (by omega)]

theorem sqrt8_eq : Real.sqrt 8 = Real.sqrt 2 * Real.sqrt 2 * Real.sqrt 2 := by
  calc Real.sqrt 8 = Real.sqrt (4*2) := by norm_num
    _ = Real.sqrt 4 * Real.sqrt 2 := Real.sqrt_mul (by norm_num) 2
    _ = 2 * Real.sqrt 2 := by
        rw [show (4:ℝ) = 2^2 by norm_num, Real.sqrt_sq (by norm_num : (0:ℝ) ≤ 2)]
    _ = Real.sqrt 2 * Real.sqrt 2 * Real.sqrt 2 := by
        rw [Real.mul_self_sqrt (by norm_num : (0:ℝ) ≤ 2)]

theorem hadamard_state (b0 b1 b2 b3 : Bool) :
    H4_2 (H4_1 (H4_0 initState)) b0 b1 b2 b3 =
      if b3 then 0 else (((Real.sqrt 8)⁻¹ : ℝ) : ℂ) := by
  have h2 : ((Real.sqrt 2 : ℝ) : ℂ) ≠ 0 := by
    norm_cast
    positivity
  have h8 : (((Real.sqrt 8)⁻¹ : ℝ) : ℂ) =
      (((Real.sqrt 2 : ℝ) : ℂ) * ((Real.sqrt 2 : ℝ) : ℂ) * ((Real.sqrt 2 : ℝ) : ℂ))⁻¹ := by
    rw [sqrt8_eq]
    push_cast
    ring
  cases b0 <;> cases b1 <;> cases b2 <;> cases b3 <;>
    simp [H4_0, H4_1, H4_2, initState, h8] <;> field_simp <;> ring

theorem qRAM_amp (ts : List ℝ) (h : ts.length ≤ 8) (b0 b1 b2 b3 : Bool) :
    qRAM ts b0 b1 b2 b3 = ((amp ts b0 b1 b2 b3 : ℝ) : ℂ) := by
  unfold qRAM
  rw [applyBlocks_apply ts 0 _ (by omega) b0 b1 b2 b3]
  unfold amp
  by_cases hin : addr b0 b1 b2 < ts.length
  · rw [if_pos ⟨Nat.zero_le _, by omega⟩, if_pos hin, Nat.sub_zero]
    unfold ryOn3
    cases b3 <;> simp [hadamard_state] <;> ring
  · rw [if_neg (by omega), if_neg hin]
    cases b3 <;> simp [hadamard_state]

theorem qRAM_correct (ts : List ℝ) (h : ts.length = 8) :
    (∀ b0 b1 b2 b3 : Bool, qRAM ts b0 b1 b2 b3 =
        (((Real.sqrt 8)⁻¹ : ℝ) : ℂ) *
          (if b3 then (Real.sin (ts.getD (addr b0 b1 b2) 0 / 2) : ℂ)
           else (Real.cos (ts.getD (addr b0 b1 b2) 0 / 2) : ℂ))) ∧
    (∀ a : ℕ, a < 8 → ∀ (θ : ℝ) (ψ : QState) (b0 b1 b2 b3 : Bool),
        addressBlock a θ ψ b0 b1 b2 b3 =
          if addr b0 b1 b2 = a then ryOn3 θ ψ b0 b1 b2 b3 else ψ b0 b1 b2 b3) := by
  constructor
  · intro b0 b1 b2 b3
    rw [qRAM_amp ts (by omega) b0 b1 b2 b3]
    unfold amp
    rw [if_pos (show addr b0 b1 b2 < ts.length by rw [h]; exact addr_lt_8 b0 b1 b2)]
    cases b3 <;> simp
  · intro a ha θ ψ b0 b1 b2 b3
    exact addressBlock_action a ha θ ψ b0 b1 b2 b3

theorem qRAM_correct_witness :
    ([0,0,0,0,0,0,0,0] : List ℝ).length = 8 ∧
    qRAM [0,0,0,0,0,0,0,0] false false false false =
      (((Real.sqrt 8)⁻¹ : ℝ) : ℂ) *
        (if (false : Bool) then
          (Real.sin (([0,0,0,0,0,0,0,0] : List ℝ).getD (addr false false false) 0 / 2) : ℂ)
         else
          (Real.cos (([0,0,0,0,0,0,0,0] : List ℝ).getD (addr false false false) 0 / 2) : ℂ)) :=
  ⟨rfl, (qRAM_correct [0,0,0,0,0,0,0,0] rfl).1 false false false false⟩

theorem qRAM_amplitudes_real (ts : List ℝ) (h : ts.length ≤ 8) (b0 b1 b2 b3 : Bool) :
    (qRAM ts b0 b1 b2 b3).im = 0 := by
  rw [qRAM_amp ts h b0 b1 b2 b3]
  exact Complex.ofReal_im _

theorem qRAM_amplitudes_real_witness :
    ([1,2] : List ℝ).length ≤ 8 ∧ (qRAM [1,2] false false false false).im = 0 :=
  ⟨by norm_num, qRAM_amplitudes_real [1,2] (by norm_num) false false false false⟩

theorem qRAM_main_output_depends_on_input :
    qRAM_main_output (List.replicate 8 (0:ℝ)) ≠ qRAM_main_output (List.replicate 8 Real.pi) := by
  intro hEq
  unfold qRAM_main_output at hEq
  rw [show List.range 16 = [0,1,2,3,4,5,6,7,8,9,10,11,12,13,14,15] from rfl] at hEq
  simp only [List.map_cons, List.map_nil] at hEq
  have h := congrArg (fun l => l.getD 1 0) hEq
  simp only [List.getD_cons_succ, List.getD_cons_zero] at h
  rw [show (1:ℕ).testBit 3 = false from rfl, show (1:ℕ).testBit 2 = false from rfl,
    show (1:ℕ).testBit 1 = false from rfl, show (1:ℕ).testBit 0 = true from rfl] at h
  have hL : (qRAM (List.replicate 8 (0:ℝ)) false false false true).re = 0 := by
    rw [qRAM_amp _ (by simp) false false false true]
    simp [amp, addr, List.replicate_succ]
  have hR : (qRAM (List.replicate 8 Real.pi) false false false true).re = (Real.sqrt 8)⁻¹ := by
    have h8ne : Real.sqrt 8 ≠ 0 := ne_of_gt (Real.sqrt_pos.mpr (by norm_num))
    rw [qRAM_amp _ (by simp) false false false true]
    simp [amp, addr, List.replicate_succ, Real.sin_pi_div_two]
    field_simp
  rw [hL, hR] at h
  have h0 : round6 0 = 0 := by simp [round6]
  have h8pos : (0:ℝ) < Real.sqrt 8 := Real.sqrt_pos.mpr (by norm_num)
  have h83 : Real.sqrt 8 ≤ 3 := by
    rw [show (3:ℝ) = Real.sqrt 9 by
      rw [show (9:ℝ) = 3^2 by norm_num, Real.sqrt_sq (by norm_num : (0:ℝ) ≤ 3)]]
    exact Real.sqrt_le_sqrt (by norm_num)
  have hy : (1/3 : ℝ) ≤ (Real.sqrt 8)⁻¹ := by
    rw [show (1/3 : ℝ) = (3:ℝ)⁻¹ by norm_num]
    exact inv_anti₀ h8pos h83
  have hround : (333333 : ℤ) ≤ round ((Real.sqrt 8)⁻¹ * 1000000) := by
    rw [round_eq]
    apply Int.le_floor.mpr
    push_cast
    nlinarith [hy]
  have hpos : (0:ℝ) < round6 ((Real.sqrt 8)⁻¹) := by
    unfold round6
    apply div_pos ?_ (by norm_num)
    have : (0:ℤ) < round ((Real.sqrt 8)⁻¹ * 1000000) := by omega
    exact_mod_cast this
  rw [h0] at h
  exact absurd h.symm (ne_of_gt hpos)

/-- **C1**. For an input list of 8 angles, the qRAM state is
(1/sqrt 8) * sum over addresses a of |a> tensor (cos(θ_a/2)|0> + sin(θ_a/2)|1>)
— stated amplitude-wise over the 16 basis states — and each address
block (the 9-gate sequence conjugated by PauliX on the zero bits of the
address) implements exactly the triply-controlled RY(θ), controlled on
the address register being |a>. -/
theorem qRAM_state_and_decomposition (ts : List ℝ) (h : ts.length = 8) :
    (∀ b0 b1 b2 b3 : Bool, qRAM ts b0 b1 b2 b3 =
        (((Real.sqrt 8)⁻¹ : ℝ) : ℂ) *
          (if b3 then (Real.sin (ts.getD (addr b0 b1 b2) 0 / 2) : ℂ)
           else (Real.cos (ts.getD (addr b0 b1 b2) 0 / 2) : ℂ))) ∧
    (∀ a : ℕ, a < 8 → ∀ (θ : ℝ) (ψ : QState) (b0 b1 b2 b3 : Bool),
        addressBlock a θ ψ b0 b1 b2 b3 =
          if addr b0 b1 b2 = a then ryOn3 θ ψ b0 b1 b2 b3 else ψ b0 b1 b2 b3) :=
  ⟨(qRAM_correct ts h).1, (qRAM_correct ts h).2⟩

/-- Witness for C1: the all-zero angle list. -/
theorem qRAM_state_and_decomposition_witness :
    ([0,0,0,0,0,0,0,0] : List ℝ).length = 8 ∧
    qRAM [0,0,0,0,0,0,0,0] false false false false =
      (((Real.sqrt 8)⁻¹ : ℝ) : ℂ) *
        (if (false : Bool) then
          (Real.sin (([0,0,0,0,0,0,0,0] : List ℝ).getD (addr false false false) 0 / 2) : ℂ)
         else
          (Real.cos (([0,0,0,0,0,0,0,0] : List ℝ).getD (addr false false false) 0 / 2) : ℂ)) :=
  ⟨rfl, (qRAM_state_and_decomposition [0,0,0,0,0,0,0,0] rfl).1 false false false false⟩

/-- **C10**. For every input list of at most 8 angles, every amplitude of
the qRAM state is real: its imaginary part is zero, so printing only the
rounded real parts loses no information about the state. -/
theorem qRAM_amplitudes_imaginary_zero (ts : List ℝ) (h : ts.length ≤ 8)
    (b0 b1 b2 b3 : Bool) : (qRAM ts b0 b1 b2 b3).im = 0 := by
  rw [qRAM_amp ts h b0 b1 b2 b3]
  exact Complex.ofReal_im _

/-- Witness for C10 at the two-angle list [1, 2]. -/
theorem qRAM_amplitudes_imaginary_zero_witness :
    ([1,2] : List ℝ).length ≤ 8 ∧ (qRAM [1,2] false false false false).im = 0 :=
  ⟨by norm_num, qRAM_amplitudes_imaginary_zero [1,2] (by norm_num) false false false false⟩

/-- **C4** (counterexample). The claim says every script reads a line of
test input from standard input.  The three notebook scripts read nothing
from standard input: their top-level loop runs over the embedded
test_cases, so the output is the same for two different stdin contents
(here instantiated with the Fourier notebook's test cases and concrete
run/check stand-ins). -/
theorem notebook_main_ignores_stdin :
    notebookMain "1,2,3" fourierTestCases (fun _ => Except.ok 1)
        (fun o e => fourier_check o e) =
      notebookMain "" fourierTestCases (fun _ => Except.ok 1)
        (fun o e => fourier_check o e) := rfl

/-- **C4** (amended). Only the standalone qRAM script reads its input
(comma-separated values) from standard input and prints its result; the
three notebook scripts consume no standard input — their output is
independent of it — and instead run the embedded test cases.  The second
conjunct exhibits the qRAM script's output genuinely depending on the
parsed input values. -/
theorem scripts_stdin_interface :
    (∀ (s1 s2 : String) (tc : List (String × ℚ)) (run : String → Except String ℚ)
        (check : ℚ → ℚ → Except String Unit),
        notebookMain s1 tc run check = notebookMain s2 tc run check) ∧
    qRAM_main_output (List.replicate 8 (0:ℝ)) ≠ qRAM_main_output (List.replicate 8 Real.pi) :=
  ⟨fun _ _ _ _ _ => rfl, qRAM_main_output_depends_on_input⟩

end Xanadu
